import Mathlib

/-!
Verification of the generalized Deutsch–Jozsa implementation (`src/Circuit.py`).

The three functions of `src/Circuit.py` (`build_oracle_from_function`,
`deutsch_jozsa_circuit`, `run_deutsch_jozsa`) are translated below as a shallow
embedding: a circuit is a list of operations (gates and measurements), and the
construction functions build those lists exactly as the Python loops do.

The execution backend (Qiskit's dense statevector simulation and sampling) is
not part of the repository's source; its semantics is modelled from the spec
(§4.1, §4.2, §4.4): an `n`-qubit state is a complex amplitude assignment to
basis indices, gates act pairwise on amplitudes, and measurement samples from
the marginal distribution over the input register.
-/

namespace DJ

/-- A gate descriptor (spec §3): Hadamard on a qubit, Pauli-X on a qubit, or a
multi-controlled-X with a list of control qubits and one target qubit. -/
inductive Gate where
  | H (q : Nat)
  | X (q : Nat)
  | MCX (controls : List Nat) (target : Nat)
deriving DecidableEq

/-- One circuit operation: a gate, or a measurement of qubit `q` into classical
bit `c` (as appended by `qc.measure`). -/
inductive Op where
  | gate (g : Gate)
  | measure (q : Nat) (c : Nat)
deriving DecidableEq

/-- A quantum circuit, as far as the source uses it: a qubit count, a classical
bit count, and an ordered list of operations. -/
structure QuantumCircuit where
  num_qubits : Nat
  num_clbits : Nat
  ops : List Op
deriving DecidableEq

/-- The X gates appended by the inner loops of `build_oracle_from_function`
(src/Circuit.py lines 36-38 and 44-46): for `i in range(n)`, an X on qubit `i`
whenever `(x >> i) & 1 == 0`. -/
def encodeGates (x n : Nat) : List Gate :=
  (List.range n).flatMap (fun i => if (x >>> i) &&& 1 = 0 then [Gate.X i] else [])

/-- The gates appended for one basis state `x` with `f(x)` odd
(src/Circuit.py lines 34-46): encode `x`, one multi-controlled X from the `n`
input qubits onto the ancilla (qubit `n`), uncompute the encoding. -/
def termGates (x n : Nat) : List Gate :=
  encodeGates x n ++ [Gate.MCX (List.range n) n] ++ encodeGates x n

/-- The set of bits flipped by `encodeGates x n`, as a natural number mask:
bit `i` is set for exactly the `i < n` with bit `i` of `x` clear. -/
def encMask (x : Nat) : Nat → Nat
  | 0 => 0
  | n + 1 => if (x >>> n) &&& 1 = 0 then encMask x n ^^^ 2 ^ n else encMask x n

/-- The balanced function of claim C3 on two input bits: the parity of `x`,
with values f(0)=0, f(1)=1, f(2)=1, f(3)=0 on the domain [0, 4). -/
def fBalanced2 : Nat → Int := fun x => if x = 0 ∨ x = 3 then 0 else 1

/-- Translation of `build_oracle_from_function` (src/Circuit.py lines 14-48):
a circuit on `n + 1` qubits; for each `x in range(2 ** n)` with `f(x) % 2 == 1`
the term gates for `x` are appended.  `f` returns a Python int, modelled as
`Int`; Lean's `%` on `Int` agrees with Python's `%` for the divisor 2. -/
def build_oracle_from_function (f : Nat → Int) (n : Nat) : QuantumCircuit :=
  { num_qubits := n + 1
    num_clbits := 0
    ops := ((List.range (2 ^ n)).flatMap (fun x =>
      if f x % 2 = 1 then termGates x n else [])).map Op.gate }

/-- The gates of a circuit, in order, with measurements dropped. -/
def circuitGates (qc : QuantumCircuit) : List Gate :=
  qc.ops.filterMap (fun op =>
    match op with
    | Op.gate g => some g
    | Op.measure _ _ => none)

/-- Translation of `deutsch_jozsa_circuit` (src/Circuit.py lines 51-95):
X on the ancilla, Hadamards on all `n + 1` qubits, the oracle's operations
(composed onto the same qubits), Hadamards on the `n` input qubits, and a
measurement of each input qubit into the classical bit of the same index. -/
def deutsch_jozsa_circuit (oracle : QuantumCircuit) : QuantumCircuit :=
  let n_plus_1 := oracle.num_qubits
  let n := n_plus_1 - 1
  { num_qubits := n_plus_1
    num_clbits := n
    ops := [Op.gate (Gate.X n)]
      ++ (List.range n_plus_1).map (fun q => Op.gate (Gate.H q))
      ++ oracle.ops
      ++ (List.range n).map (fun q => Op.gate (Gate.H q))
      ++ (List.range n).map (fun q => Op.measure q q) }

/-- Modelled from the spec (§4.2; the gate engine is Qiskit's statevector
backend, not part of src): the coefficient 1/√2 of the Hadamard gate. -/
noncomputable def invSqrt2 : ℂ := ((Real.sqrt 2)⁻¹ : ℝ)

/-- The all-zero-except-one quantum state with amplitude 1 at basis index `k`
(spec §4.1: `initialize` puts amplitude 1 at index 0). -/
def basisState (k : Nat) : Nat → ℂ := fun i => if i = k then 1 else 0

/-- Modelled from the spec (§4.2): Hadamard on qubit `q` replaces each
amplitude pair (a0, a1) at basis indices differing only in bit `q` by
((a0 + a1)/√2, (a0 − a1)/√2). -/
noncomputable def applyH (q : Nat) (ψ : Nat → ℂ) : Nat → ℂ := fun i =>
  if i.testBit q then (ψ (i ^^^ 2 ^ q) - ψ i) * invSqrt2
  else (ψ i + ψ (i ^^^ 2 ^ q)) * invSqrt2

/-- Modelled from the spec (§4.2): Pauli-X on qubit `q` swaps the amplitudes
of each pair of basis indices differing only in bit `q`. -/
def applyX (q : Nat) (ψ : Nat → ℂ) : Nat → ℂ := fun i => ψ (i ^^^ 2 ^ q)

/-- Modelled from the spec (§4.2): multi-controlled X swaps the amplitudes of
`i` and `i` with the target bit flipped whenever all control bits of `i` are
1, and leaves indices with some control bit 0 untouched. -/
def applyMCX (cs : List Nat) (t : Nat) (ψ : Nat → ℂ) : Nat → ℂ := fun i =>
  if cs.all (fun c => i.testBit c) then ψ (i ^^^ 2 ^ t) else ψ i

/-- Apply one gate descriptor to a state (spec §4.2). -/
noncomputable def applyGate : Gate → (Nat → ℂ) → (Nat → ℂ)
  | Gate.H q => applyH q
  | Gate.X q => applyX q
  | Gate.MCX cs t => applyMCX cs t

/-- Apply a gate sequence left to right (spec §4.4 ORACLE step: every gate of
the sequence, in order). -/
noncomputable def applyGates (gs : List Gate) (ψ : Nat → ℂ) : Nat → ℂ :=
  gs.foldl (fun s g => applyGate g s) ψ

/-- The statevector at the end of a circuit run: all gates of the circuit
applied, in order, to the all-zero initial state (spec §3 lifecycle). -/
noncomputable def finalState (qc : QuantumCircuit) : Nat → ℂ :=
  applyGates (circuitGates qc) (basisState 0)

/-- Modelled from the spec (§4.4 MEASURE): the probability of observing input
register bitstring `b` is the sum over both ancilla values of the squared
magnitude of the amplitude at the index encoding `b` with that ancilla value
(ancilla = bit `n`). -/
noncomputable def probOutcome (n : Nat) (ψ : Nat → ℂ) (b : Nat) : ℝ :=
  Complex.normSq (ψ b) + Complex.normSq (ψ (b + 2 ^ n))

/-- The marginal distribution over the `2^n` input-register outcomes after the
Deutsch–Jozsa pipeline built from `f`'s oracle (spec §4.4). -/
noncomputable def djProbs (f : Nat → Int) (n : Nat) : List ℝ :=
  (List.range (2 ^ n)).map
    (probOutcome n (finalState (deutsch_jozsa_circuit (build_oracle_from_function f n))))

/-- Modelled from the spec (§4.4, §6: categorical sampling with one uniform
random number in [0,1)): inverse-CDF draw — the outcome index at which the
cumulative probability first exceeds the random value `r`. -/
noncomputable def sampleOne : List ℝ → ℝ → Nat
  | [], _ => 0
  | p :: ps, r => if r < p then 0 else sampleOne ps (r - p) + 1

/-- Modelled from the spec (§4.4): `shots` independent samples are `shots`
draws from the fixed final distribution, one per supplied random number. -/
noncomputable def sampleOutcomes (probs : List ℝ) (rs : List ℝ) : List Nat :=
  rs.map (sampleOne probs)

/-- The loop of `build_oracle_from_function` (src/Circuit.py lines 32-46) with
Python exception semantics made explicit: `f` may fail (raise) at an input, in
which case the exception propagates from the first failing iteration and no
circuit is returned. -/
def oracleLoop (f : Nat → Except String Int) (n : Nat) : List Nat → Except String (List Gate)
  | [] => Except.ok []
  | x :: xs =>
    match f x with
    | Except.error e => Except.error e
    | Except.ok v =>
      match oracleLoop f n xs with
      | Except.error e => Except.error e
      | Except.ok rest =>
        if v % 2 = 1 then Except.ok (termGates x n ++ rest) else Except.ok rest

/-- `build_oracle_from_function` (src/Circuit.py lines 14-48) with Python
error behaviour made explicit.  The source performs no width validation: for
negative `n`, Python itself raises before the loop body can run
(`QuantumCircuit(n + 1)` rejects a negative size for `n ≤ -2`, and
`range(2 ** n)` rejects the non-integer `2 ** n` for `n = -1`), modelled as a
single TypeError; for `n ≥ 0` the loop runs and a failure of `f` propagates
unchanged. -/
def build_oracle_E (f : Nat → Except String Int) (n : Int) :
    Except String QuantumCircuit :=
  if n < 0 then Except.error "TypeError"
  else
    match oracleLoop f n.toNat (List.range (2 ^ n.toNat)) with
    | Except.error e => Except.error e
    | Except.ok gs => Except.ok ⟨n.toNat + 1, 0, gs.map Op.gate⟩

/-- Translation of `run_deutsch_jozsa` (src/Circuit.py lines 98-127) with
error behaviour explicit: it builds the oracle (a failure of `f` propagates
from here), then builds the full circuit, and only then executes on the
backend.  The backend's execution is modelled from the spec (§4.4, §7): it
rejects a non-positive shot count, and otherwise returns `shots` samples from
the final marginal distribution, consuming one uniform random number each. -/
noncomputable def run_deutsch_jozsa_E (f : Nat → Except String Int) (n : Int)
    (shots : Int) (rs : List ℝ) : Except String (List Nat) :=
  match build_oracle_E f n with
  | Except.error e => Except.error e
  | Except.ok oracle =>
    let dj := deutsch_jozsa_circuit oracle
    if shots ≤ 0 then Except.error "ShotCountInvalid"
    else
      Except.ok (sampleOutcomes
        ((List.range (2 ^ dj.num_clbits)).map
          (probOutcome dj.num_clbits (finalState dj)))
        (rs.take shots.toNat))

/-- The sum of squared amplitude magnitudes over the `2^m` basis states of an
`m`-qubit register (spec §3 invariant, §8 Unitarity). -/
noncomputable def normSqSum (m : Nat) (ψ : Nat → ℂ) : ℝ :=
  ∑ i ∈ Finset.range (2 ^ m), Complex.normSq (ψ i)

/-- A gate fits on an `m`-qubit register: its qubits are in range and an MCX
target is not among its controls (every gate the pipeline emits is of this
shape). -/
def GateWF (m : Nat) : Gate → Prop
  | Gate.H q => q < m
  | Gate.X q => q < m
  | Gate.MCX cs t => t < m ∧ (∀ c ∈ cs, c < m) ∧ t ∉ cs

/-- C4: the circuit built by `deutsch_jozsa_circuit` from an oracle on `n + 1`
qubits consists of exactly: X on the ancilla qubit `n`, Hadamard on each of the
`n + 1` qubits, every oracle operation in order, Hadamard on each of the `n`
input qubits only, and a measurement of exactly the `n` input qubits. -/
theorem deutsch_jozsa_circuit_ops (n : Nat) (oracleOps : List Op) :
    (deutsch_jozsa_circuit ⟨n + 1, 0, oracleOps⟩).ops =
      Op.gate (Gate.X n)
        :: ((List.range (n + 1)).map (fun q => Op.gate (Gate.H q))
          ++ oracleOps
          ++ (List.range n).map (fun q => Op.gate (Gate.H q))
          ++ (List.range n).map (fun q => Op.measure q q))
    ∧ (deutsch_jozsa_circuit ⟨n + 1, 0, oracleOps⟩).num_clbits = n := by
  constructor
  · simp [deutsch_jozsa_circuit]
  · rfl

/-- C9: if `f` is 0 on all of `[0, 2^n)`, the oracle has no gate operations and
is the identity circuit on `n + 1` qubits. -/
theorem oracle_empty_of_const_zero (f : Nat → Int) (n : Nat) (h1 : 1 ≤ n)
    (hf : ∀ x < 2 ^ n, f x = 0) :
    (build_oracle_from_function f n).ops = []
      ∧ (build_oracle_from_function f n).num_qubits = n + 1 := by
  refine ⟨?_, rfl⟩
  simp only [build_oracle_from_function, List.map_eq_nil_iff, List.flatMap_eq_nil_iff]
  intro x hx
  rw [hf x (List.mem_range.mp hx)]
  norm_num

/-- Witness for `oracle_empty_of_const_zero` at `n = 2`, `f = 0`. -/
theorem oracle_empty_of_const_zero_witness :
    (build_oracle_from_function (fun _ => 0) 2).ops = []
      ∧ (build_oracle_from_function (fun _ => 0) 2).num_qubits = 2 + 1 :=
  oracle_empty_of_const_zero (fun _ => 0) 2 (by norm_num) (fun x _ => rfl)

/-- C10: the synthesizer only looks at `f(x) % 2`, so `f` and `x ↦ f(x) mod 2`
produce exactly the same oracle: integer values outside {0,1} are reduced
modulo 2 (even as 0, odd as 1) rather than rejected. -/
theorem oracle_mod_two (f : Nat → Int) (n : Nat) :
    build_oracle_from_function f n = build_oracle_from_function (fun x => f x % 2) n := by
  unfold build_oracle_from_function
  congr 1
  refine congrArg _ (congrArg _ (funext fun x => ?_))
  rw [Int.emod_emod_of_dvd (f x) (dvd_refl 2)]

theorem oracleLoop_append (f : Nat → Except String Int) (n : Nat) (l1 l2 : List Nat) :
    oracleLoop f n (l1 ++ l2) =
      (oracleLoop f n l1).bind (fun a => (oracleLoop f n l2).map (fun b => a ++ b)) := by
  induction l1 with
  | nil =>
    simp only [List.nil_append, oracleLoop]
    cases h : oracleLoop f n l2 <;> simp [h, Except.bind, Except.map]
  | cons x xs ih =>
    cases hfx : f x with
    | error e => simp [oracleLoop, List.cons_append, hfx, Except.bind]
    | ok v =>
      cases hxs : oracleLoop f n xs with
      | error e => simp [oracleLoop, List.cons_append, hfx, hxs, ih, Except.bind]
      | ok a =>
        cases hl2 : oracleLoop f n l2 with
        | error e =>
          simp only [oracleLoop, List.cons_append, List.append_eq, hfx, hxs, hl2, ih,
            Except.bind, Except.map]
          by_cases hv : v % 2 = 1 <;> simp [hv]
        | ok b =>
          simp only [oracleLoop, List.cons_append, List.append_eq, hfx, hxs, hl2, ih,
            Except.bind, Except.map]
          by_cases hv : v % 2 = 1 <;> simp [hv, List.append_assoc]

theorem oracleLoop_ok (f : Nat → Except String Int) (n : Nat) (L : List Nat)
    (hok : ∀ x ∈ L, ∃ v, f x = Except.ok v) :
    ∃ gs, oracleLoop f n L = Except.ok gs := by
  induction L with
  | nil => exact ⟨[], rfl⟩
  | cons x xs ih =>
    obtain ⟨v, hv⟩ := hok x (List.mem_cons_self x xs)
    obtain ⟨gs, hgs⟩ := ih (fun y hy => hok y (List.mem_cons_of_mem x hy))
    refine ⟨if v % 2 = 1 then termGates x n ++ gs else gs, ?_⟩
    simp only [oracleLoop, hv, hgs]
    split <;> rfl

theorem oracleLoop_range_error (f : Nat → Except String Int) (n : Nat) (x0 : Nat)
    (msg : String) (herr : f x0 = Except.error msg)
    (hok : ∀ x < x0, ∃ v, f x = Except.ok v) :
    ∀ k, x0 < k → oracleLoop f n (List.range k) = Except.error msg := by
  intro k
  induction k with
  | zero => omega
  | succ m ih =>
    intro hlt
    rw [List.range_succ, oracleLoop_append]
    rcases Nat.lt_or_ge x0 m with hm | hm
    · rw [ih hm]; rfl
    · have hx0 : x0 = m := by omega
      subst hx0
      obtain ⟨gs, hgs⟩ := oracleLoop_ok f n (List.range x0)
        (fun y hy => hok y (List.mem_range.mp hy))
      rw [hgs]
      simp [oracleLoop, herr, Except.bind, Except.map]

/-- C6 counterexample: `n = 0` is below the claimed validity threshold `n ≥ 1`,
yet oracle synthesis succeeds — the source performs no width check, and for
`n = 0` with an even `f(0)` every Python operation in the body is valid, so an
empty oracle on one qubit is returned instead of a fatal error. -/
theorem build_oracle_zero_width_succeeds :
    build_oracle_E (fun _ => Except.ok 0) 0 = Except.ok ⟨1, 0, []⟩ := rfl

/-- C6 (amended): only a negative `n` makes oracle synthesis fail — Python
raises before the loop (`QuantumCircuit` rejects a negative size, `range`
rejects the fractional `2 ** n`) — while `n = 0` is accepted. -/
theorem build_oracle_fails_on_negative_width (f : Nat → Except String Int)
    (n : Int) (h : n < 0) : build_oracle_E f n = Except.error "TypeError" := by
  simp [build_oracle_E, h]

/-- Witness for `build_oracle_fails_on_negative_width` at `n = -1`. -/
theorem build_oracle_fails_on_negative_width_witness :
    build_oracle_E (fun _ => Except.ok 0) (-1) = Except.error "TypeError" :=
  build_oracle_fails_on_negative_width (fun _ => Except.ok 0) (-1) (by norm_num)

/-- C7: if `f` fails at some `x0` in `[0, 2^n)` (all earlier inputs
succeeding, so `x0` is where the loop stops), the failure propagates unchanged
out of `build_oracle_from_function` and no oracle — not even a partial one —
is returned. -/
theorem build_oracle_propagates_failure (f : Nat → Except String Int) (n : Int)
    (x0 : Nat) (msg : String) (hn : 1 ≤ n) (hx0 : x0 < 2 ^ n.toNat)
    (hok : ∀ x < x0, ∃ v, f x = Except.ok v)
    (herr : f x0 = Except.error msg) :
    build_oracle_E f n = Except.error msg := by
  have hnn : ¬ n < 0 := by omega
  simp only [build_oracle_E, hnn, if_false]
  rw [oracleLoop_range_error f n.toNat x0 msg herr hok (2 ^ n.toNat) hx0]

/-- Witness for `build_oracle_propagates_failure`: `n = 1`, with `f` failing
at `x = 1` after succeeding at `x = 0`. -/
theorem build_oracle_propagates_failure_witness :
    build_oracle_E (fun x => if x = 0 then Except.ok 0 else Except.error "boom") 1
      = Except.error "boom" :=
  build_oracle_propagates_failure _ 1 1 "boom" (by norm_num) (by norm_num)
    (fun x hx => ⟨0, by simp [Nat.lt_one_iff.mp hx]⟩) rfl

/-- C8 counterexample: with `shots = 0` (≤ 0) and an `f` that fails, the run
reports `f`'s failure, not a shot-count rejection — the oracle construction
(simulation work) runs before `shots` is ever inspected, refuting “rejected
before any simulation work begins”. -/
theorem run_shots_not_checked_first :
    run_deutsch_jozsa_E (fun _ => Except.error "PredicateEvaluationFailure") 1 0 []
      = Except.error "PredicateEvaluationFailure" := rfl

/-- C8 (amended): a non-positive shot count is rejected only at backend
execution time, after the oracle and the full circuit have been built; when
oracle construction itself succeeds, the run then fails with the shot-count
error. -/
theorem run_rejects_nonpositive_shots_after_build (f : Nat → Except String Int)
    (n shots : Int) (rs : List ℝ) (hn : 0 ≤ n) (hs : shots ≤ 0)
    (hok : ∀ x < 2 ^ n.toNat, ∃ v, f x = Except.ok v) :
    run_deutsch_jozsa_E f n shots rs = Except.error "ShotCountInvalid" := by
  obtain ⟨gs, hgs⟩ := oracleLoop_ok f n.toNat (List.range (2 ^ n.toNat))
    (fun y hy => hok y (List.mem_range.mp hy))
  have hnn : ¬ n < 0 := by omega
  simp [run_deutsch_jozsa_E, build_oracle_E, hnn, hgs, hs]

/-- Witness for `run_rejects_nonpositive_shots_after_build` at `n = 1`,
`shots = 0`. -/
theorem run_rejects_nonpositive_shots_after_build_witness :
    run_deutsch_jozsa_E (fun _ => Except.ok 0) 1 0 [] = Except.error "ShotCountInvalid" :=
  run_rejects_nonpositive_shots_after_build (fun _ => Except.ok 0) 1 0 []
    (by norm_num) (by norm_num) (fun x _ => ⟨0, rfl⟩)

theorem applyGates_append (gs1 gs2 : List Gate) (ψ : Nat → ℂ) :
    applyGates (gs1 ++ gs2) ψ = applyGates gs2 (applyGates gs1 ψ) := by
  simp [applyGates, List.foldl_append]

theorem bitcond_eq_false_iff (x i : Nat) : (x >>> i) &&& 1 = 0 ↔ x.testBit i = false := by
  rw [Nat.and_one_is_mod, Nat.shiftRight_eq_div_pow, Nat.testBit_to_div_mod]
  have h2 : x / 2 ^ i % 2 < 2 := Nat.mod_lt _ (by norm_num)
  constructor
  · intro h; simp [h]
  · intro h; simp at h; omega

theorem encodeGates_succ (x n : Nat) :
    encodeGates x (n + 1) =
      encodeGates x n ++ (if (x >>> n) &&& 1 = 0 then [Gate.X n] else []) := by
  simp [encodeGates, List.range_succ]

theorem xor_rotate (i M t : Nat) : ((i ^^^ M) ^^^ t) ^^^ M = i ^^^ t := by
  rw [Nat.xor_assoc i M t, Nat.xor_comm M t, ← Nat.xor_assoc i t M, Nat.xor_cancel_right]

theorem encMask_succ_set (x m : Nat) (hc : (x >>> m) &&& 1 = 0) :
    encMask x (m + 1) = encMask x m ^^^ 2 ^ m := by
  simp only [encMask]
  rw [if_pos hc]

theorem encMask_succ_clear (x m : Nat) (hc : ¬ (x >>> m) &&& 1 = 0) :
    encMask x (m + 1) = encMask x m := by
  simp only [encMask]
  rw [if_neg hc]

theorem applyGates_encode (x n : Nat) (ψ : Nat → ℂ) :
    applyGates (encodeGates x n) ψ = fun i => ψ (i ^^^ encMask x n) := by
  induction n with
  | zero =>
    funext i
    simp [encodeGates, applyGates, encMask]
  | succ m ih =>
    rw [encodeGates_succ, applyGates_append, ih]
    by_cases hc : (x >>> m) &&& 1 = 0
    · rw [if_pos hc, encMask_succ_set x m hc]
      funext i
      simp only [applyGates, List.foldl_cons, List.foldl_nil, applyGate, applyX]
      rw [Nat.xor_assoc i (2 ^ m) (encMask x m), Nat.xor_comm (2 ^ m) (encMask x m)]
    · rw [if_neg hc, encMask_succ_clear x m hc]
      rfl

theorem encMask_testBit (x n j : Nat) :
    (encMask x n).testBit j = (decide (j < n) && !(x.testBit j)) := by
  induction n with
  | zero => simp [encMask, Nat.zero_testBit]
  | succ m ih =>
    by_cases hc : (x >>> m) &&& 1 = 0
    · have hxm : x.testBit m = false := (bitcond_eq_false_iff x m).mp hc
      rw [encMask_succ_set x m hc, Nat.testBit_xor, ih, Nat.testBit_two_pow]
      rcases Nat.lt_trichotomy j m with hj | hj | hj
      · simp [hj, (show j < m + 1 by omega), (show m ≠ j by omega)]
      · subst hj
        simp [hxm]
      · simp [(show ¬ j < m by omega), (show ¬ j < m + 1 by omega), (show m ≠ j by omega)]
    · have hxm : x.testBit m = true := by
        rcases Bool.eq_false_or_eq_true (x.testBit m) with h | h
        · exact h
        · exact absurd ((bitcond_eq_false_iff x m).mpr h) hc
      rw [encMask_succ_clear x m hc, ih]
      rcases Nat.lt_trichotomy j m with hj | hj | hj
      · simp [hj, (show j < m + 1 by omega)]
      · subst hj
        simp [hxm]
      · simp [(show ¬ j < m by omega), (show ¬ j < m + 1 by omega)]

theorem mod_two_pow_eq_iff (i x n : Nat) (hx : x < 2 ^ n) :
    i % 2 ^ n = x ↔ ∀ c, c < n → i.testBit c = x.testBit c := by
  constructor
  · intro h c hc
    have := congrArg (fun t => Nat.testBit t c) h
    simpa [Nat.testBit_mod_two_pow, hc] using this
  · intro h
    apply Nat.eq_of_testBit_eq
    intro j
    rw [Nat.testBit_mod_two_pow]
    by_cases hj : j < n
    · simp [hj, h j hj]
    · have hxj : x.testBit j = false :=
        Nat.testBit_lt_two_pow (lt_of_lt_of_le hx (Nat.pow_le_pow_right (by norm_num) (by omega)))
      simp [hj, hxj]

theorem xor_two_pow_mod (i n : Nat) : (i ^^^ 2 ^ n) % 2 ^ n = i % 2 ^ n := by
  apply Nat.eq_of_testBit_eq
  intro j
  rw [Nat.testBit_mod_two_pow, Nat.testBit_mod_two_pow, Nat.testBit_xor, Nat.testBit_two_pow]
  by_cases hj : j < n
  · simp [hj, (show n ≠ j by omega)]
  · simp [hj]

theorem add_two_pow_mul_testBit (x y n j : Nat) (hx : x < 2 ^ n) (hy : y < 2) :
    (x + 2 ^ n * y).testBit j =
      if j < n then x.testBit j else if j = n then decide (y = 1) else false := by
  rcases Nat.lt_trichotomy j n with hj | hj | hj
  · have hsplit : 2 ^ n = 2 ^ j * 2 ^ (n - j) := by
      rw [← pow_add]
      congr 1
      omega
    have hdiv : (x + 2 ^ n * y) / 2 ^ j = x / 2 ^ j + 2 ^ (n - j) * y := by
      rw [hsplit, Nat.mul_assoc, Nat.add_mul_div_left _ _ (Nat.pos_pow_of_pos j (by norm_num))]
    have heven : 2 ^ (n - j) * y = 2 * (2 ^ (n - j - 1) * y) := by
      rw [← Nat.mul_assoc]
      congr 1
      rw [← pow_succ']
      congr 1
      omega
    rw [Nat.testBit_to_div_mod, Nat.testBit_to_div_mod, hdiv, heven,
      Nat.add_mul_mod_self_left]
    simp [hj]
  · subst hj
    have hdiv : (x + 2 ^ j * y) / 2 ^ j = y := by
      rw [Nat.add_mul_div_left _ _ (Nat.pos_pow_of_pos j (by norm_num)),
        Nat.div_eq_of_lt hx, Nat.zero_add]
    rw [Nat.testBit_to_div_mod, hdiv, Nat.mod_eq_of_lt hy]
    simp
  · have hone : 2 ^ n * y ≤ 2 ^ n := by
      calc 2 ^ n * y ≤ 2 ^ n * 1 := Nat.mul_le_mul_left _ (by omega)
        _ = 2 ^ n := Nat.mul_one _
    have hlt : x + 2 ^ n * y < 2 ^ j := by
      have h2 : 2 ^ n * 2 ≤ 2 ^ j := by
        rw [← pow_succ]
        exact Nat.pow_le_pow_right (by norm_num) (by omega)
      omega
    rw [Nat.testBit_lt_two_pow hlt]
    simp [(show ¬ j < n by omega), (show j ≠ n by omega)]

theorem idx_xor (x y n : Nat) (hx : x < 2 ^ n) (hy : y < 2) :
    (x + 2 ^ n * y) ^^^ 2 ^ n = x + 2 ^ n * (1 - y) := by
  apply Nat.eq_of_testBit_eq
  intro j
  rw [Nat.testBit_xor, Nat.testBit_two_pow,
    add_two_pow_mul_testBit x y n j hx hy,
    add_two_pow_mul_testBit x (1 - y) n j hx (by omega)]
  rcases Nat.lt_trichotomy j n with hj | hj | hj
  · simp [hj, (show n ≠ j by omega)]
  · subst hj
    interval_cases y <;> simp
  · simp [(show ¬ j < n by omega), (show ¬ j = n by omega), (show ¬ n = j by omega)]

theorem applyGates_term (x n : Nat) (hx : x < 2 ^ n) (ψ : Nat → ℂ) :
    applyGates (termGates x n) ψ
      = fun i => if i % 2 ^ n = x then ψ (i ^^^ 2 ^ n) else ψ i := by
  unfold termGates
  rw [applyGates_append, applyGates_append, applyGates_encode, applyGates_encode]
  funext i
  simp only [applyGates, List.foldl_cons, List.foldl_nil, applyGate, applyMCX]
  have hbool : ∀ (a b : Bool), ((a ^^ !b) = true) ↔ a = b := by decide
  have hctrl : ((List.range n).all (fun c => (i ^^^ encMask x n).testBit c)) = true
      ↔ i % 2 ^ n = x := by
    rw [List.all_eq_true, mod_two_pow_eq_iff i x n hx]
    constructor
    · intro h c hc
      have hth := h c (List.mem_range.mpr hc)
      rw [Nat.testBit_xor, encMask_testBit] at hth
      simp only [hc, decide_True, Bool.true_and] at hth
      exact (hbool _ _).mp hth
    · intro h c hcmem
      have hc := List.mem_range.mp hcmem
      rw [Nat.testBit_xor, encMask_testBit]
      simp only [hc, decide_True, Bool.true_and]
      exact (hbool _ _).mpr (h c hc)
  by_cases hm : i % 2 ^ n = x
  · rw [if_pos (hctrl.mpr hm), if_pos hm, xor_rotate]
  · rw [if_neg (fun hh => hm (hctrl.mp hh)), if_neg hm, Nat.xor_cancel_right]

theorem applyGates_nil (ψ : Nat → ℂ) : applyGates [] ψ = ψ := rfl

theorem term_point (x n : Nat) (hx : x < 2 ^ n) (ψ : Nat → ℂ) (i : Nat) :
    applyGates (termGates x n) ψ i
      = if i % 2 ^ n = x then ψ (i ^^^ 2 ^ n) else ψ i :=
  congrFun (applyGates_term x n hx ψ) i

theorem applyGates_oracleList (f : Nat → Int) (n : Nat) (L : List Nat) :
    ∀ ψ : Nat → ℂ, (∀ a ∈ L, a < 2 ^ n) → L.Nodup →
    applyGates (L.flatMap (fun x => if f x % 2 = 1 then termGates x n else [])) ψ
      = fun i => if f (i % 2 ^ n) % 2 = 1 ∧ i % 2 ^ n ∈ L then ψ (i ^^^ 2 ^ n) else ψ i := by
  induction L with
  | nil =>
    intro ψ _ _
    funext i
    simp [applyGates]
  | cons a L2 ih =>
    intro ψ hL hnd
    have ha : a < 2 ^ n := hL a (List.mem_cons_self a L2)
    have hL2 : ∀ b ∈ L2, b < 2 ^ n := fun b hb => hL b (List.mem_cons_of_mem a hb)
    have hand : a ∉ L2 := (List.nodup_cons.mp hnd).1
    have hnd2 : L2.Nodup := (List.nodup_cons.mp hnd).2
    funext i
    rw [List.flatMap_cons, applyGates_append,
      congrFun (ih (applyGates (if f a % 2 = 1 then termGates a n else []) ψ) hL2 hnd2) i]
    have hxmod : (i ^^^ 2 ^ n) % 2 ^ n = i % 2 ^ n := xor_two_pow_mod i n
    by_cases hfa : f a % 2 = 1
    · rw [if_pos hfa, term_point a n ha ψ (i ^^^ 2 ^ n), term_point a n ha ψ i,
        hxmod, Nat.xor_cancel_right]
      by_cases hA : f (i % 2 ^ n) % 2 = 1
      · by_cases hD : i % 2 ^ n = a
        · by_cases hB : i % 2 ^ n ∈ L2
          · exact absurd (hD ▸ hB) hand
          · simp [hA, hB, hD, hand, hfa, List.mem_cons]
        · by_cases hB : i % 2 ^ n ∈ L2
          · simp [hA, hB, hD, List.mem_cons]
          · simp [hA, hB, hD, List.mem_cons]
      · by_cases hD : i % 2 ^ n = a
        · exact absurd (by rw [hD]; exact hfa) hA
        · simp [hA, hD, List.mem_cons]
    · rw [if_neg hfa, applyGates_nil]
      by_cases hA : f (i % 2 ^ n) % 2 = 1
      · by_cases hD : i % 2 ^ n = a
        · rw [hD] at hA
          exact absurd hA hfa
        · simp [hA, hD, List.mem_cons]
      · simp [hA]

theorem circuitGates_build_oracle (f : Nat → Int) (n : Nat) :
    circuitGates (build_oracle_from_function f n)
      = (List.range (2 ^ n)).flatMap (fun x => if f x % 2 = 1 then termGates x n else []) := by
  have hcomp : ((fun op =>
      match op with
      | Op.gate g => some g
      | Op.measure _ _ => none) ∘ Op.gate) = some := by
    funext g
    rfl
  rw [circuitGates, build_oracle_from_function, List.filterMap_map, hcomp, List.filterMap_some]

theorem oracle_eval (f : Nat → Int) (n : Nat) (ψ : Nat → ℂ) :
    applyGates (circuitGates (build_oracle_from_function f n)) ψ
      = fun i => if f (i % 2 ^ n) % 2 = 1 then ψ (i ^^^ 2 ^ n) else ψ i := by
  rw [circuitGates_build_oracle,
    applyGates_oracleList f n (List.range (2 ^ n)) ψ
      (fun a ha => List.mem_range.mp ha) (List.nodup_range _)]
  funext i
  have hmem : i % 2 ^ n ∈ List.range (2 ^ n) :=
    List.mem_range.mpr (Nat.mod_lt _ (Nat.pos_pow_of_pos n (by norm_num)))
  simp [hmem]

/-- C1: for every `n ≥ 1` and total `f : [0, 2^n) → {0,1}`, the oracle built
by `build_oracle_from_function` acts on basis states as
U_f |x⟩|y⟩ = |x⟩|y ⊕ f(x)⟩: input register `x` (bit `i` of `x` on qubit `i`)
is preserved and the ancilla (qubit `n`) becomes `y XOR f(x)`. -/
theorem oracle_unitary (f : Nat → Int) (n x y : Nat) (hn : 1 ≤ n)
    (hf : ∀ z < 2 ^ n, f z = 0 ∨ f z = 1) (hx : x < 2 ^ n) (hy : y < 2) :
    applyGates (circuitGates (build_oracle_from_function f n)) (basisState (x + 2 ^ n * y))
      = basisState (x + 2 ^ n * (y ^^^ (f x).toNat)) := by
  rw [oracle_eval]
  funext i
  have hkmod : (x + 2 ^ n * y) % 2 ^ n = x := by
    rw [Nat.add_mul_mod_self_left, Nat.mod_eq_of_lt hx]
  have hkxor : (x + 2 ^ n * y) ^^^ 2 ^ n = x + 2 ^ n * (1 - y) := idx_xor x y n hx hy
  rcases hf x hx with hfx | hfx
  · have htn : (f x).toNat = 0 := by rw [hfx]; rfl
    rw [htn, Nat.xor_zero]
    by_cases hcond : f (i % 2 ^ n) % 2 = 1
    · rw [if_pos hcond]
      simp only [basisState]
      by_cases hik : i ^^^ 2 ^ n = x + 2 ^ n * y
      · exfalso
        have hi : i = (x + 2 ^ n * y) ^^^ 2 ^ n := by
          rw [← hik, Nat.xor_cancel_right]
        have hmod : i % 2 ^ n = x := by
          rw [hi, xor_two_pow_mod, hkmod]
        rw [hmod, hfx] at hcond
        norm_num at hcond
      · rw [if_neg hik]
        have hik2 : i ≠ x + 2 ^ n * y := by
          intro he
          rw [he, hkmod, hfx] at hcond
          norm_num at hcond
        rw [if_neg hik2]
    · rw [if_neg hcond]
  · have htn : (f x).toNat = 1 := by rw [hfx]; rfl
    have hy1 : y ^^^ 1 = 1 - y := by interval_cases y <;> rfl
    rw [htn, hy1]
    by_cases hcond : f (i % 2 ^ n) % 2 = 1
    · rw [if_pos hcond]
      simp only [basisState]
      have hiff : (i ^^^ 2 ^ n = x + 2 ^ n * y) ↔ (i = x + 2 ^ n * (1 - y)) := by
        constructor
        · intro h
          have hi : i = (x + 2 ^ n * y) ^^^ 2 ^ n := by
            rw [← h, Nat.xor_cancel_right]
          rw [hi, hkxor]
        · intro h
          rw [h, ← hkxor, Nat.xor_cancel_right]
      by_cases hik : i ^^^ 2 ^ n = x + 2 ^ n * y
      · rw [if_pos hik, if_pos (hiff.mp hik)]
      · rw [if_neg hik, if_neg (fun hh => hik (hiff.mpr hh))]
    · rw [if_neg hcond]
      simp only [basisState]
      by_cases hik : i = x + 2 ^ n * y
      · exfalso
        rw [hik, hkmod, hfx] at hcond
        norm_num at hcond
      · rw [if_neg hik]
        by_cases hik2 : i = x + 2 ^ n * (1 - y)
        · exfalso
          have hmod : i % 2 ^ n = x := by
            rw [hik2, Nat.add_mul_mod_self_left, Nat.mod_eq_of_lt hx]
          rw [hmod, hfx] at hcond
          norm_num at hcond
        · rw [if_neg hik2]

/-- Witness for `oracle_unitary`: n = 1, f the indicator of 1, input x = 1,
ancilla y = 0; the oracle flips the ancilla. -/
theorem oracle_unitary_witness :
    applyGates
        (circuitGates (build_oracle_from_function (fun z => if z = 1 then 1 else 0) 1))
        (basisState (1 + 2 ^ 1 * 0))
      = basisState (1 + 2 ^ 1 * (0 ^^^ ((if (1 : Nat) = 1 then (1 : Int) else 0)).toNat)) :=
  oracle_unitary (fun z => if z = 1 then 1 else 0) 1 1 0 (by norm_num)
    (by decide) (by norm_num) (by norm_num)

theorem invSqrt2_mul_self : invSqrt2 * invSqrt2 = (2 : ℂ)⁻¹ := by
  unfold invSqrt2
  rw [← Complex.ofReal_mul, ← mul_inv, Real.mul_self_sqrt (by norm_num)]
  norm_num

theorem normSq_invSqrt2 : Complex.normSq invSqrt2 = 1 / 2 := by
  unfold invSqrt2
  rw [Complex.normSq_ofReal, ← mul_inv, Real.mul_self_sqrt (by norm_num)]
  norm_num

theorem testBit_xor_two_pow_self (i q : Nat) :
    (i ^^^ 2 ^ q).testBit q = !(i.testBit q) := by
  rw [Nat.testBit_xor, Nat.testBit_two_pow]
  simp

theorem testBit_xor_two_pow_ne (i a b : Nat) (h : a ≠ b) :
    (i ^^^ 2 ^ a).testBit b = i.testBit b := by
  rw [Nat.testBit_xor, Nat.testBit_two_pow]
  simp [h]

theorem xor_two_pow_swap (i a b : Nat) : i ^^^ 2 ^ a ^^^ 2 ^ b = i ^^^ 2 ^ b ^^^ 2 ^ a := by
  rw [Nat.xor_assoc, Nat.xor_comm (2 ^ a), ← Nat.xor_assoc]

theorem applyH_applyH (q : Nat) (ψ : Nat → ℂ) : applyH q (applyH q ψ) = ψ := by
  funext i
  rcases Bool.eq_false_or_eq_true (i.testBit q) with hb | hb
  · simp only [applyH, hb, testBit_xor_two_pow_self, Bool.not_false, Bool.not_true,
      if_true, if_false, Nat.xor_cancel_right, Bool.false_eq_true]
    linear_combination (2 * ψ i) * invSqrt2_mul_self
  · simp only [applyH, hb, testBit_xor_two_pow_self, Bool.not_false, Bool.not_true,
      if_true, if_false, Nat.xor_cancel_right, Bool.false_eq_true]
    linear_combination (2 * ψ i) * invSqrt2_mul_self

theorem applyH_comm (q w : Nat) (h : q ≠ w) (ψ : Nat → ℂ) :
    applyH q (applyH w ψ) = applyH w (applyH q ψ) := by
  funext i
  have e1 : ∀ j : Nat, (j ^^^ 2 ^ q).testBit w = j.testBit w :=
    fun j => testBit_xor_two_pow_ne j q w h
  have e2 : ∀ j : Nat, (j ^^^ 2 ^ w).testBit q = j.testBit q :=
    fun j => testBit_xor_two_pow_ne j w q (Ne.symm h)
  have hsw : i ^^^ 2 ^ q ^^^ 2 ^ w = i ^^^ 2 ^ w ^^^ 2 ^ q := xor_two_pow_swap i q w
  rcases Bool.eq_false_or_eq_true (i.testBit q) with hq | hq <;>
    rcases Bool.eq_false_or_eq_true (i.testBit w) with hw | hw <;>
      simp only [applyH, e1, e2, hq, hw, if_true, if_false, Bool.false_eq_true, hsw] <;>
        ring

theorem applyX_applyH_comm (q w : Nat) (h : q ≠ w) (ψ : Nat → ℂ) :
    applyX q (applyH w ψ) = applyH w (applyX q ψ) := by
  funext i
  have e2 : (i ^^^ 2 ^ q).testBit w = i.testBit w := testBit_xor_two_pow_ne i q w h
  have hsw : i ^^^ 2 ^ q ^^^ 2 ^ w = i ^^^ 2 ^ w ^^^ 2 ^ q := xor_two_pow_swap i q w
  rcases Bool.eq_false_or_eq_true (i.testBit w) with hw | hw <;>
    simp only [applyH, applyX, e2, hw, if_true, if_false, Bool.false_eq_true, hsw]

theorem applyGates_cons (g : Gate) (gs : List Gate) (ψ : Nat → ℂ) :
    applyGates (g :: gs) ψ = applyGates gs (applyGate g ψ) := rfl

theorem hLayer_succ (m : Nat) (ψ : Nat → ℂ) :
    applyGates ((List.range (m + 1)).map (fun q => Gate.H q)) ψ
      = applyH m (applyGates ((List.range m).map (fun q => Gate.H q)) ψ) := by
  rw [List.range_succ, List.map_append, applyGates_append]
  rfl

theorem applyH_hLayer_comm (q m : Nat) (hq : m ≤ q) (ψ : Nat → ℂ) :
    applyH q (applyGates ((List.range m).map (fun w => Gate.H w)) ψ)
      = applyGates ((List.range m).map (fun w => Gate.H w)) (applyH q ψ) := by
  induction m generalizing ψ with
  | zero => rfl
  | succ k ih =>
    rw [hLayer_succ, hLayer_succ, applyH_comm q k (by omega), ih (by omega)]

theorem applyX_hLayer_comm (q m : Nat) (hq : m ≤ q) (ψ : Nat → ℂ) :
    applyX q (applyGates ((List.range m).map (fun w => Gate.H w)) ψ)
      = applyGates ((List.range m).map (fun w => Gate.H w)) (applyX q ψ) := by
  induction m generalizing ψ with
  | zero => rfl
  | succ k ih =>
    rw [hLayer_succ, hLayer_succ, applyX_applyH_comm q k (by omega), ih (by omega)]

theorem hLayer_hLayer (m : Nat) (ψ : Nat → ℂ) :
    applyGates ((List.range m).map (fun w => Gate.H w))
      (applyGates ((List.range m).map (fun w => Gate.H w)) ψ) = ψ := by
  induction m generalizing ψ with
  | zero => rfl
  | succ k ih =>
    rw [hLayer_succ, hLayer_succ, ← applyH_hLayer_comm k k (le_refl k), ih, applyH_applyH]

theorem applyX_basis (q k : Nat) : applyX q (basisState k) = basisState (k ^^^ 2 ^ q) := by
  funext i
  simp only [applyX, basisState]
  by_cases h : i = k ^^^ 2 ^ q
  · rw [if_pos (by rw [h, Nat.xor_cancel_right]), if_pos h]
  · rw [if_neg (fun hh => h (by rw [← hh, Nat.xor_cancel_right])), if_neg h]

theorem circuitGates_dj (oracle : QuantumCircuit) :
    circuitGates (deutsch_jozsa_circuit oracle)
      = Gate.X (oracle.num_qubits - 1)
          :: ((List.range oracle.num_qubits).map (fun q => Gate.H q)
            ++ circuitGates oracle
            ++ (List.range (oracle.num_qubits - 1)).map (fun q => Gate.H q)) := by
  have hg : ((fun op =>
      match op with
      | Op.gate g => some g
      | Op.measure _ _ => none) ∘ (fun q : Nat => Op.gate (Gate.H q)))
        = some ∘ (fun q : Nat => Gate.H q) := by
    funext q
    rfl
  have hm : ∀ l : List Nat, l.filterMap ((fun op =>
      match op with
      | Op.gate g => some g
      | Op.measure _ _ => none) ∘ (fun q : Nat => Op.measure q q)) = [] := by
    intro l
    induction l with
    | nil => rfl
    | cons a t ih => simp [List.filterMap_cons, ih]
  simp only [deutsch_jozsa_circuit, circuitGates, List.filterMap_cons, List.filterMap_append,
    List.filterMap_map, hg, List.filterMap_eq_map, hm]
  simp

theorem finalState_dj (f : Nat → Int) (n : Nat) :
    finalState (deutsch_jozsa_circuit (build_oracle_from_function f n))
      = applyGates ((List.range n).map (fun q => Gate.H q))
          (applyGates (circuitGates (build_oracle_from_function f n))
            (applyH n (applyGates ((List.range n).map (fun q => Gate.H q))
              (basisState (2 ^ n))))) := by
  rw [finalState, circuitGates_dj]
  have hq : (build_oracle_from_function f n).num_qubits = n + 1 := rfl
  rw [hq]
  simp only [Nat.add_sub_cancel]
  rw [applyGates_cons, applyGates_append, applyGates_append, hLayer_succ]
  have hx0 : applyGate (Gate.X n) (basisState 0) = basisState (2 ^ n) := by
    show applyX n (basisState 0) = basisState (2 ^ n)
    rw [applyX_basis, Nat.zero_xor]
  rw [hx0]

theorem applyH_basis_two_pow_at_zero (n : Nat) :
    applyH n (basisState (2 ^ n)) 0 = invSqrt2 := by
  have hne : (0 : Nat) ≠ 2 ^ n := by
    have := Nat.pos_pow_of_pos n (show 0 < 2 by norm_num)
    omega
  simp [applyH, basisState, Nat.zero_testBit, Nat.zero_xor, hne]

theorem applyH_basis_two_pow_at_top (n : Nat) :
    applyH n (basisState (2 ^ n)) (2 ^ n) = -invSqrt2 := by
  have htb : (2 ^ n).testBit n = true := by
    rw [Nat.testBit_two_pow]
    simp
  have hne : (0 : Nat) ≠ 2 ^ n := by
    have := Nat.pos_pow_of_pos n (show 0 < 2 by norm_num)
    omega
  simp [applyH, basisState, htb, Nat.xor_self, hne]

theorem sampleOne_head_one (p : ℝ) (ps : List ℝ) (r : ℝ) (hp : p = 1) (h1 : r < 1) :
    sampleOne (p :: ps) r = 0 := by
  subst hp
  simp [sampleOne, h1]

/-- C2: for a function constant on `[0, 2^n)` (all 0 or all 1), the
Deutsch–Jozsa pipeline assigns probability 1 to the all-zero input-register
outcome, and every sample drawn (one per uniform random number in [0,1))
is the all-zero outcome. -/
theorem dj_constant_all_zero (f : Nat → Int) (n : Nat) (rs : List ℝ) (hn : 1 ≤ n)
    (hf : (∀ x < 2 ^ n, f x = 0) ∨ (∀ x < 2 ^ n, f x = 1))
    (hrs : ∀ r ∈ rs, 0 ≤ r ∧ r < 1) :
    probOutcome n (finalState (deutsch_jozsa_circuit (build_oracle_from_function f n))) 0 = 1
      ∧ ∀ s ∈ sampleOutcomes (djProbs f n) rs, s = 0 := by
  have hpos : 0 < 2 ^ n := Nat.pos_pow_of_pos n (by norm_num)
  have hprob :
      probOutcome n (finalState (deutsch_jozsa_circuit (build_oracle_from_function f n))) 0
        = 1 := by
    rcases hf with hf0 | hf1
    · have horacle : applyGates (circuitGates (build_oracle_from_function f n))
          (applyH n (applyGates ((List.range n).map (fun q => Gate.H q))
            (basisState (2 ^ n))))
          = applyH n (applyGates ((List.range n).map (fun q => Gate.H q))
            (basisState (2 ^ n))) := by
        rw [oracle_eval]
        funext i
        rw [hf0 _ (Nat.mod_lt _ hpos)]
        norm_num
      rw [finalState_dj, horacle,
        ← applyH_hLayer_comm n n (le_refl n), hLayer_hLayer, probOutcome, Nat.zero_add,
        applyH_basis_two_pow_at_zero, applyH_basis_two_pow_at_top, Complex.normSq_neg,
        normSq_invSqrt2]
      norm_num
    · have horacle : applyGates (circuitGates (build_oracle_from_function f n))
          (applyH n (applyGates ((List.range n).map (fun q => Gate.H q))
            (basisState (2 ^ n))))
          = applyX n (applyH n (applyGates ((List.range n).map (fun q => Gate.H q))
            (basisState (2 ^ n)))) := by
        rw [oracle_eval]
        funext i
        rw [hf1 _ (Nat.mod_lt _ hpos)]
        norm_num [applyX]
      rw [finalState_dj, horacle,
        ← applyX_hLayer_comm n n (le_refl n), ← applyH_hLayer_comm n n (le_refl n),
        hLayer_hLayer, probOutcome, Nat.zero_add]
      show Complex.normSq (applyH n (basisState (2 ^ n)) (0 ^^^ 2 ^ n))
          + Complex.normSq (applyH n (basisState (2 ^ n)) (2 ^ n ^^^ 2 ^ n)) = 1
      rw [Nat.zero_xor, Nat.xor_self, applyH_basis_two_pow_at_zero,
        applyH_basis_two_pow_at_top, Complex.normSq_neg, normSq_invSqrt2]
      norm_num
  refine ⟨hprob, ?_⟩
  intro s hs
  obtain ⟨r, hrmem, hsr⟩ := List.mem_map.mp hs
  have hdec : djProbs f n
      = probOutcome n
          (finalState (deutsch_jozsa_circuit (build_oracle_from_function f n))) 0
        :: ((List.range (2 ^ n - 1)).map Nat.succ).map
          (probOutcome n
            (finalState (deutsch_jozsa_circuit (build_oracle_from_function f n)))) := by
    rw [djProbs, (show 2 ^ n = (2 ^ n - 1) + 1 by omega), List.range_succ_eq_map,
      List.map_cons]
    simp
  rw [← hsr, hdec]
  exact sampleOne_head_one _ _ _ hprob (hrs r hrmem).2

/-- Witness for `dj_constant_all_zero`: n = 1, f = 0, one sample at r = 1/2. -/
theorem dj_constant_all_zero_witness :
    probOutcome 1
        (finalState (deutsch_jozsa_circuit (build_oracle_from_function (fun _ => 0) 1))) 0 = 1
      ∧ ∀ s ∈ sampleOutcomes (djProbs (fun _ => 0) 1) [(1 : ℝ) / 2], s = 0 :=
  dj_constant_all_zero (fun _ => 0) 1 [(1 : ℝ) / 2] (by norm_num)
    (Or.inl (fun x _ => rfl)) (by norm_num)

theorem applyH_at_true {q i : Nat} (h : i.testBit q = true) (ψ : Nat → ℂ) :
    applyH q ψ i = (ψ (i ^^^ 2 ^ q) - ψ i) * invSqrt2 := by
  simp [applyH, h]

theorem applyH_at_false {q i : Nat} (h : i.testBit q = false) (ψ : Nat → ℂ) :
    applyH q ψ i = (ψ i + ψ (i ^^^ 2 ^ q)) * invSqrt2 := by
  simp [applyH, h]

theorem sampleOne_head_zero (p : ℝ) (ps : List ℝ) (r : ℝ) (hp : p = 0) (hr : 0 ≤ r) :
    sampleOne (p :: ps) r ≠ 0 := by
  subst hp
  simp [sampleOne, not_lt.mpr hr]

theorem balanced2_state_values :
    (applyH 2 (applyH 1 (applyH 0 (basisState (2 ^ 2)))) 0
        = invSqrt2 * invSqrt2 * invSqrt2
      ∧ applyH 2 (applyH 1 (applyH 0 (basisState (2 ^ 2)))) 1
        = invSqrt2 * invSqrt2 * invSqrt2
      ∧ applyH 2 (applyH 1 (applyH 0 (basisState (2 ^ 2)))) 2
        = invSqrt2 * invSqrt2 * invSqrt2
      ∧ applyH 2 (applyH 1 (applyH 0 (basisState (2 ^ 2)))) 3
        = invSqrt2 * invSqrt2 * invSqrt2)
    ∧ (applyH 2 (applyH 1 (applyH 0 (basisState (2 ^ 2)))) 4
        = -(invSqrt2 * invSqrt2 * invSqrt2)
      ∧ applyH 2 (applyH 1 (applyH 0 (basisState (2 ^ 2)))) 5
        = -(invSqrt2 * invSqrt2 * invSqrt2)
      ∧ applyH 2 (applyH 1 (applyH 0 (basisState (2 ^ 2)))) 6
        = -(invSqrt2 * invSqrt2 * invSqrt2)
      ∧ applyH 2 (applyH 1 (applyH 0 (basisState (2 ^ 2)))) 7
        = -(invSqrt2 * invSqrt2 * invSqrt2)) := by
  have hA0 : applyH 0 (basisState (2 ^ 2)) 0 = 0 := by
    rw [applyH_at_false (by decide : (0 : Nat).testBit 0 = false),
      (show (0 : Nat) ^^^ 2 ^ 0 = 1 by decide)]
    norm_num [basisState]
  have hA1 : applyH 0 (basisState (2 ^ 2)) 1 = 0 := by
    rw [applyH_at_true (by decide : (1 : Nat).testBit 0 = true),
      (show (1 : Nat) ^^^ 2 ^ 0 = 0 by decide)]
    norm_num [basisState]
  have hA2 : applyH 0 (basisState (2 ^ 2)) 2 = 0 := by
    rw [applyH_at_false (by decide : (2 : Nat).testBit 0 = false),
      (show (2 : Nat) ^^^ 2 ^ 0 = 3 by decide)]
    norm_num [basisState]
  have hA3 : applyH 0 (basisState (2 ^ 2)) 3 = 0 := by
    rw [applyH_at_true (by decide : (3 : Nat).testBit 0 = true),
      (show (3 : Nat) ^^^ 2 ^ 0 = 2 by decide)]
    norm_num [basisState]
  have hA4 : applyH 0 (basisState (2 ^ 2)) 4 = invSqrt2 := by
    rw [applyH_at_false (by decide : (4 : Nat).testBit 0 = false),
      (show (4 : Nat) ^^^ 2 ^ 0 = 5 by decide)]
    norm_num [basisState]
  have hA5 : applyH 0 (basisState (2 ^ 2)) 5 = invSqrt2 := by
    rw [applyH_at_true (by decide : (5 : Nat).testBit 0 = true),
      (show (5 : Nat) ^^^ 2 ^ 0 = 4 by decide)]
    norm_num [basisState]
  have hA6 : applyH 0 (basisState (2 ^ 2)) 6 = 0 := by
    rw [applyH_at_false (by decide : (6 : Nat).testBit 0 = false),
      (show (6 : Nat) ^^^ 2 ^ 0 = 7 by decide)]
    norm_num [basisState]
  have hA7 : applyH 0 (basisState (2 ^ 2)) 7 = 0 := by
    rw [applyH_at_true (by decide : (7 : Nat).testBit 0 = true),
      (show (7 : Nat) ^^^ 2 ^ 0 = 6 by decide)]
    norm_num [basisState]
  have hB0 : applyH 1 (applyH 0 (basisState (2 ^ 2))) 0 = 0 := by
    rw [applyH_at_false (by decide : (0 : Nat).testBit 1 = false),
      (show (0 : Nat) ^^^ 2 ^ 1 = 2 by decide), hA0, hA2]
    ring
  have hB1 : applyH 1 (applyH 0 (basisState (2 ^ 2))) 1 = 0 := by
    rw [applyH_at_false (by decide : (1 : Nat).testBit 1 = false),
      (show (1 : Nat) ^^^ 2 ^ 1 = 3 by decide), hA1, hA3]
    ring
  have hB2 : applyH 1 (applyH 0 (basisState (2 ^ 2))) 2 = 0 := by
    rw [applyH_at_true (by decide : (2 : Nat).testBit 1 = true),
      (show (2 : Nat) ^^^ 2 ^ 1 = 0 by decide), hA0, hA2]
    ring
  have hB3 : applyH 1 (applyH 0 (basisState (2 ^ 2))) 3 = 0 := by
    rw [applyH_at_true (by decide : (3 : Nat).testBit 1 = true),
      (show (3 : Nat) ^^^ 2 ^ 1 = 1 by decide), hA1, hA3]
    ring
  have hB4 : applyH 1 (applyH 0 (basisState (2 ^ 2))) 4 = invSqrt2 * invSqrt2 := by
    rw [applyH_at_false (by decide : (4 : Nat).testBit 1 = false),
      (show (4 : Nat) ^^^ 2 ^ 1 = 6 by decide), hA4, hA6]
    ring
  have hB5 : applyH 1 (applyH 0 (basisState (2 ^ 2))) 5 = invSqrt2 * invSqrt2 := by
    rw [applyH_at_false (by decide : (5 : Nat).testBit 1 = false),
      (show (5 : Nat) ^^^ 2 ^ 1 = 7 by decide), hA5, hA7]
    ring
  have hB6 : applyH 1 (applyH 0 (basisState (2 ^ 2))) 6 = invSqrt2 * invSqrt2 := by
    rw [applyH_at_true (by decide : (6 : Nat).testBit 1 = true),
      (show (6 : Nat) ^^^ 2 ^ 1 = 4 by decide), hA4, hA6]
    ring
  have hB7 : applyH 1 (applyH 0 (basisState (2 ^ 2))) 7 = invSqrt2 * invSqrt2 := by
    rw [applyH_at_true (by decide : (7 : Nat).testBit 1 = true),
      (show (7 : Nat) ^^^ 2 ^ 1 = 5 by decide), hA5, hA7]
    ring
  refine ⟨⟨?_, ?_, ?_, ?_⟩, ?_, ?_, ?_, ?_⟩
  · rw [applyH_at_false (by decide : (0 : Nat).testBit 2 = false),
      (show (0 : Nat) ^^^ 2 ^ 2 = 4 by decide), hB0, hB4]
    ring
  · rw [applyH_at_false (by decide : (1 : Nat).testBit 2 = false),
      (show (1 : Nat) ^^^ 2 ^ 2 = 5 by decide), hB1, hB5]
    ring
  · rw [applyH_at_false (by decide : (2 : Nat).testBit 2 = false),
      (show (2 : Nat) ^^^ 2 ^ 2 = 6 by decide), hB2, hB6]
    ring
  · rw [applyH_at_false (by decide : (3 : Nat).testBit 2 = false),
      (show (3 : Nat) ^^^ 2 ^ 2 = 7 by decide), hB3, hB7]
    ring
  · rw [applyH_at_true (by decide : (4 : Nat).testBit 2 = true),
      (show (4 : Nat) ^^^ 2 ^ 2 = 0 by decide), hB0, hB4]
    ring
  · rw [applyH_at_true (by decide : (5 : Nat).testBit 2 = true),
      (show (5 : Nat) ^^^ 2 ^ 2 = 1 by decide), hB1, hB5]
    ring
  · rw [applyH_at_true (by decide : (6 : Nat).testBit 2 = true),
      (show (6 : Nat) ^^^ 2 ^ 2 = 2 by decide), hB2, hB6]
    ring
  · rw [applyH_at_true (by decide : (7 : Nat).testBit 2 = true),
      (show (7 : Nat) ^^^ 2 ^ 2 = 3 by decide), hB3, hB7]
    ring

/-- C3: for n = 2 and the balanced parity function (f(0)=0, f(1)=1, f(2)=1,
f(3)=0), the Deutsch–Jozsa pipeline gives the all-zero input-register outcome
probability exactly 0, and no sample drawn (one per uniform random number in
[0,1)) is ever the all-zero outcome. -/
theorem dj_balanced_never_zero (rs : List ℝ) (hrs : ∀ r ∈ rs, 0 ≤ r ∧ r < 1) :
    probOutcome 2
        (finalState (deutsch_jozsa_circuit (build_oracle_from_function fBalanced2 2))) 0 = 0
      ∧ ∀ s ∈ sampleOutcomes (djProbs fBalanced2 2) rs, s ≠ 0 := by
  obtain ⟨⟨hC0, hC1, hC2, hC3⟩, hC4, hC5, hC6, hC7⟩ := balanced2_state_values
  have hL2fun : ∀ ψ : Nat → ℂ,
      applyGates ((List.range 2).map (fun q => Gate.H q)) ψ = applyH 1 (applyH 0 ψ) :=
    fun ψ => rfl
  have h0 : finalState (deutsch_jozsa_circuit (build_oracle_from_function fBalanced2 2)) 0
      = 0 := by
    rw [finalState_dj, oracle_eval, hL2fun, hL2fun]
    set ψB := applyH 2 (applyH 1 (applyH 0 (basisState (2 ^ 2)))) with hψB
    rw [applyH_at_false (by decide : (0 : Nat).testBit 1 = false),
      (show (0 : Nat) ^^^ 2 ^ 1 = 2 by decide),
      applyH_at_false (by decide : (0 : Nat).testBit 0 = false),
      (show (0 : Nat) ^^^ 2 ^ 0 = 1 by decide),
      applyH_at_false (by decide : (2 : Nat).testBit 0 = false),
      (show (2 : Nat) ^^^ 2 ^ 0 = 3 by decide),
      if_neg (by decide : ¬ fBalanced2 (0 % 2 ^ 2) % 2 = 1),
      if_pos (by decide : fBalanced2 (1 % 2 ^ 2) % 2 = 1),
      if_pos (by decide : fBalanced2 (2 % 2 ^ 2) % 2 = 1),
      if_neg (by decide : ¬ fBalanced2 (3 % 2 ^ 2) % 2 = 1),
      (show (1 : Nat) ^^^ 2 ^ 2 = 5 by decide),
      (show (2 : Nat) ^^^ 2 ^ 2 = 6 by decide),
      hC0, hC5, hC6, hC3]
    ring
  have h4 : finalState (deutsch_jozsa_circuit (build_oracle_from_function fBalanced2 2)) 4
      = 0 := by
    rw [finalState_dj, oracle_eval, hL2fun, hL2fun]
    set ψB := applyH 2 (applyH 1 (applyH 0 (basisState (2 ^ 2)))) with hψB
    rw [applyH_at_false (by decide : (4 : Nat).testBit 1 = false),
      (show (4 : Nat) ^^^ 2 ^ 1 = 6 by decide),
      applyH_at_false (by decide : (4 : Nat).testBit 0 = false),
      (show (4 : Nat) ^^^ 2 ^ 0 = 5 by decide),
      applyH_at_false (by decide : (6 : Nat).testBit 0 = false),
      (show (6 : Nat) ^^^ 2 ^ 0 = 7 by decide),
      if_neg (by decide : ¬ fBalanced2 (4 % 2 ^ 2) % 2 = 1),
      if_pos (by decide : fBalanced2 (5 % 2 ^ 2) % 2 = 1),
      if_pos (by decide : fBalanced2 (6 % 2 ^ 2) % 2 = 1),
      if_neg (by decide : ¬ fBalanced2 (7 % 2 ^ 2) % 2 = 1),
      (show (5 : Nat) ^^^ 2 ^ 2 = 1 by decide),
      (show (6 : Nat) ^^^ 2 ^ 2 = 2 by decide),
      hC4, hC1, hC2, hC7]
    ring
  have hprob :
      probOutcome 2
        (finalState (deutsch_jozsa_circuit (build_oracle_from_function fBalanced2 2))) 0
      = 0 := by
    rw [probOutcome, (show (0 + 2 ^ 2 : Nat) = 4 by norm_num), h0, h4]
    simp
  refine ⟨hprob, ?_⟩
  intro s hs
  obtain ⟨r, hrmem, hsr⟩ := List.mem_map.mp hs
  have hdec : djProbs fBalanced2 2
      = probOutcome 2
          (finalState (deutsch_jozsa_circuit (build_oracle_from_function fBalanced2 2))) 0
        :: ((List.range 3).map Nat.succ).map
          (probOutcome 2
            (finalState (deutsch_jozsa_circuit (build_oracle_from_function fBalanced2 2)))) := by
    rw [djProbs, (show 2 ^ 2 = 3 + 1 by norm_num), List.range_succ_eq_map, List.map_cons]
  rw [← hsr, hdec]
  exact sampleOne_head_zero _ _ _ hprob (hrs r hrmem).1

/-- Witness for `dj_balanced_never_zero`: one sample at r = 1/2. -/
theorem dj_balanced_never_zero_witness :
    probOutcome 2
        (finalState (deutsch_jozsa_circuit (build_oracle_from_function fBalanced2 2))) 0 = 0
      ∧ ∀ s ∈ sampleOutcomes (djProbs fBalanced2 2) [(1 : ℝ) / 2], s ≠ 0 :=
  dj_balanced_never_zero [(1 : ℝ) / 2] (by norm_num)

theorem sum_pair (m q : Nat) (hq : q < m) (F : Nat → ℝ) :
    ∑ i ∈ Finset.range (2 ^ m), F i
      = ∑ i ∈ (Finset.range (2 ^ m)).filter (fun i => i.testBit q = false),
          (F i + F (i ^^^ 2 ^ q)) := by
  have hqlt : 2 ^ q < 2 ^ m := Nat.pow_lt_pow_right (by norm_num) hq
  rw [Finset.sum_add_distrib,
    ← Finset.sum_filter_add_sum_filter_not (Finset.range (2 ^ m))
      (fun i => i.testBit q = false) F]
  congr 1
  apply Finset.sum_nbij' (fun i => i ^^^ 2 ^ q) (fun i => i ^^^ 2 ^ q)
  · intro a ha
    obtain ⟨har, hab⟩ := Finset.mem_filter.mp ha
    have hab2 : a.testBit q = true := by
      rcases Bool.eq_false_or_eq_true (a.testBit q) with h | h
      · exact h
      · exact absurd h hab
    refine Finset.mem_filter.mpr ⟨?_, ?_⟩
    · exact Finset.mem_range.mpr
        (Nat.xor_lt_two_pow (Finset.mem_range.mp har) hqlt)
    · rw [testBit_xor_two_pow_self, hab2]
      rfl
  · intro a ha
    obtain ⟨har, hab⟩ := Finset.mem_filter.mp ha
    refine Finset.mem_filter.mpr ⟨?_, ?_⟩
    · exact Finset.mem_range.mpr
        (Nat.xor_lt_two_pow (Finset.mem_range.mp har) hqlt)
    · rw [testBit_xor_two_pow_self, hab]
      simp
  · intro a _
    exact Nat.xor_cancel_right _ _
  · intro a _
    exact Nat.xor_cancel_right _ _
  · intro a _
    rw [Nat.xor_cancel_right]

theorem normSqSum_applyH (m q : Nat) (hq : q < m) (ψ : Nat → ℂ) :
    normSqSum m (applyH q ψ) = normSqSum m ψ := by
  rw [normSqSum, normSqSum, sum_pair m q hq, sum_pair m q hq (fun i => Complex.normSq (ψ i))]
  apply Finset.sum_congr rfl
  intro i hi
  obtain ⟨_, htb⟩ := Finset.mem_filter.mp hi
  rw [applyH_at_false htb,
    applyH_at_true (by rw [testBit_xor_two_pow_self, htb]; rfl),
    Nat.xor_cancel_right, Complex.normSq_mul, Complex.normSq_mul, normSq_invSqrt2,
    Complex.normSq_add, Complex.normSq_sub]
  ring

theorem normSqSum_applyX (m q : Nat) (hq : q < m) (ψ : Nat → ℂ) :
    normSqSum m (applyX q ψ) = normSqSum m ψ := by
  have hqlt : 2 ^ q < 2 ^ m := Nat.pow_lt_pow_right (by norm_num) hq
  rw [normSqSum, normSqSum]
  apply Finset.sum_nbij' (fun i => i ^^^ 2 ^ q) (fun i => i ^^^ 2 ^ q)
  · intro a ha
    exact Finset.mem_range.mpr (Nat.xor_lt_two_pow (Finset.mem_range.mp ha) hqlt)
  · intro a ha
    exact Finset.mem_range.mpr (Nat.xor_lt_two_pow (Finset.mem_range.mp ha) hqlt)
  · intro a _
    exact Nat.xor_cancel_right _ _
  · intro a _
    exact Nat.xor_cancel_right _ _
  · intro a _
    rfl

theorem normSqSum_applyMCX (m : Nat) (cs : List Nat) (t : Nat) (ht : t < m)
    (htcs : t ∉ cs) (ψ : Nat → ℂ) :
    normSqSum m (applyMCX cs t ψ) = normSqSum m ψ := by
  have htlt : 2 ^ t < 2 ^ m := Nat.pow_lt_pow_right (by norm_num) ht
  have hctrl : ∀ i : Nat,
      (cs.all (fun c => (i ^^^ 2 ^ t).testBit c)) = (cs.all (fun c => i.testBit c)) := by
    intro i
    have hgen : ∀ l : List Nat, t ∉ l →
        (l.all (fun c => (i ^^^ 2 ^ t).testBit c)) = l.all (fun c => i.testBit c) := by
      intro l hl
      induction l with
      | nil => rfl
      | cons c cl ih =>
        simp only [List.all_cons]
        rw [testBit_xor_two_pow_ne i t c
            (fun he => hl (by rw [he]; exact List.mem_cons_self c cl)),
          ih (fun hh => hl (List.mem_cons_of_mem c hh))]
    exact hgen cs htcs
  have happ : ∀ i : Nat, applyMCX cs t ψ i
      = ψ (if cs.all (fun c => i.testBit c) then i ^^^ 2 ^ t else i) := by
    intro i
    simp only [applyMCX]
    split <;> rfl
  rw [normSqSum, normSqSum]
  apply Finset.sum_nbij'
    (fun i => if cs.all (fun c => i.testBit c) then i ^^^ 2 ^ t else i)
    (fun i => if cs.all (fun c => i.testBit c) then i ^^^ 2 ^ t else i)
  · intro a ha
    split
    · exact Finset.mem_range.mpr (Nat.xor_lt_two_pow (Finset.mem_range.mp ha) htlt)
    · exact ha
  · intro a ha
    split
    · exact Finset.mem_range.mpr (Nat.xor_lt_two_pow (Finset.mem_range.mp ha) htlt)
    · exact ha
  · intro a _
    by_cases hb : cs.all (fun c => a.testBit c) = true
    · rw [if_pos hb, if_pos (by rw [hctrl]; exact hb), Nat.xor_cancel_right]
    · rw [if_neg hb, if_neg hb]
  · intro a _
    by_cases hb : cs.all (fun c => a.testBit c) = true
    · rw [if_pos hb, if_pos (by rw [hctrl]; exact hb), Nat.xor_cancel_right]
    · rw [if_neg hb, if_neg hb]
  · intro a _
    rw [happ a]

theorem encode_wf (x n : Nat) : ∀ g ∈ encodeGates x n, GateWF (n + 1) g := by
  intro g hg
  unfold encodeGates at hg
  obtain ⟨i, himem, hgi⟩ := List.mem_flatMap.mp hg
  by_cases hc : (x >>> i) &&& 1 = 0
  · rw [if_pos hc] at hgi
    rcases List.mem_singleton.mp hgi with rfl
    simp only [GateWF]
    have := List.mem_range.mp himem
    omega
  · rw [if_neg hc] at hgi
    exact absurd hgi (List.not_mem_nil g)

theorem pipeline_gates_wf (f : Nat → Int) (n : Nat) :
    ∀ g ∈ circuitGates (deutsch_jozsa_circuit (build_oracle_from_function f n)),
      GateWF (n + 1) g := by
  intro g hg
  rw [circuitGates_dj] at hg
  have hq : (build_oracle_from_function f n).num_qubits = n + 1 := rfl
  rw [hq, Nat.add_sub_cancel] at hg
  rcases List.mem_cons.mp hg with hgx | hg2
  · subst hgx
    simp only [GateWF]
    omega
  · rcases List.mem_append.mp hg2 with hg3 | hg4
    · rcases List.mem_append.mp hg3 with hg5 | hg6
      · obtain ⟨q, hqmem, hgq⟩ := List.mem_map.mp hg5
        rcases hgq
        simp only [GateWF]
        have := List.mem_range.mp hqmem
        omega
      · rw [circuitGates_build_oracle] at hg6
        obtain ⟨x, hxmem, hgx⟩ := List.mem_flatMap.mp hg6
        by_cases hfx : f x % 2 = 1
        · rw [if_pos hfx] at hgx
          unfold termGates at hgx
          rcases List.mem_append.mp hgx with h7 | h8
          · rcases List.mem_append.mp h7 with h9 | h10
            · exact encode_wf x n g h9
            · rcases List.mem_singleton.mp h10 with rfl
              refine ⟨by omega, ?_, ?_⟩
              · intro c hc
                have := List.mem_range.mp hc
                omega
              · intro hmem
                exact absurd (List.mem_range.mp hmem) (lt_irrefl n)
          · exact encode_wf x n g h8
        · rw [if_neg hfx] at hgx
          exact absurd hgx (List.not_mem_nil g)
    · obtain ⟨q, hqmem, hgq⟩ := List.mem_map.mp hg4
      rcases hgq
      simp only [GateWF]
      have := List.mem_range.mp hqmem
      omega

theorem normSqSum_applyGate (m : Nat) (g : Gate) (hg : GateWF m g) (ψ : Nat → ℂ) :
    normSqSum m (applyGate g ψ) = normSqSum m ψ := by
  cases g with
  | H q =>
    simp only [GateWF] at hg
    exact normSqSum_applyH m q hg ψ
  | X q =>
    simp only [GateWF] at hg
    exact normSqSum_applyX m q hg ψ
  | MCX cs t =>
    obtain ⟨h1, _, h3⟩ := hg
    exact normSqSum_applyMCX m cs t h1 h3 ψ

theorem normSqSum_applyGates (m : Nat) (gs : List Gate) :
    ∀ ψ : Nat → ℂ, (∀ g ∈ gs, GateWF m g) →
      normSqSum m (applyGates gs ψ) = normSqSum m ψ := by
  induction gs with
  | nil =>
    intro ψ _
    rfl
  | cons g gl ih =>
    intro ψ hwf
    rw [applyGates_cons, ih (applyGate g ψ) (fun g2 h2 => hwf g2 (List.mem_cons_of_mem g h2)),
      normSqSum_applyGate m g (hwf g (List.mem_cons_self g gl)) ψ]

theorem normSqSum_basisState_zero (m : Nat) : normSqSum m (basisState 0) = 1 := by
  rw [normSqSum]
  have h : ∀ i : Nat, Complex.normSq (basisState 0 i) = if i = 0 then 1 else 0 := by
    intro i
    rw [basisState]
    split <;> simp
  rw [Finset.sum_congr rfl (fun i _ => h i),
    Finset.sum_ite_eq' (Finset.range (2 ^ m)) 0 (fun _ => (1 : ℝ)),
    if_pos (Finset.mem_range.mpr (Nat.pos_pow_of_pos m (by norm_num)))]

/-- C5: along the Deutsch–Jozsa pipeline (any `f`, any qubit count), after
every individual gate application — i.e., for every prefix of the pipeline's
gate sequence applied to the all-zero initial state — the sum of squared
amplitude magnitudes over the `2^(n+1)` basis states stays within 1e-9 of 1
(in fact it is exactly 1: H, X and multi-controlled-X preserve the norm). -/
theorem dj_unitarity (f : Nat → Int) (n : Nat) (pre suf : List Gate)
    (hsplit : circuitGates (deutsch_jozsa_circuit (build_oracle_from_function f n))
      = pre ++ suf) :
    |normSqSum (n + 1) (applyGates pre (basisState 0)) - 1| ≤ 1 / 1000000000 := by
  have hwf : ∀ g ∈ pre, GateWF (n + 1) g := by
    intro g hgmem
    apply pipeline_gates_wf f n
    rw [hsplit]
    exact List.mem_append.mpr (Or.inl hgmem)
  rw [normSqSum_applyGates (n + 1) pre (basisState 0) hwf, normSqSum_basisState_zero]
  norm_num

/-- Witness for `dj_unitarity`: the full gate list of the pipeline for
`n = 1`, `f = 1` as the prefix. -/
theorem dj_unitarity_witness :
    |normSqSum (1 + 1) (applyGates [Gate.X 1, Gate.H 0, Gate.H 1, Gate.X 0,
        Gate.MCX [0] 1, Gate.X 0, Gate.MCX [0] 1, Gate.H 0] (basisState 0)) - 1|
      ≤ 1 / 1000000000 :=
  dj_unitarity (fun _ => 1) 1 [Gate.X 1, Gate.H 0, Gate.H 1, Gate.X 0,
      Gate.MCX [0] 1, Gate.X 0, Gate.MCX [0] 1, Gate.H 0] [] (by decide)

end DJ
